import Mathlib

/-!
Verification of the text layout and pagination engine of a text-to-image bot
(`simple_bot.py`). The Python source is shallowly embedded below: pixel-width
measurement (`draw.textlength`) is an abstract function `Nat → String → Nat`
(font size, shaped string, width); Python string operations are re-implemented
structurally on `List Char` so every definition evaluates inside the kernel.
Fractional layout constants (`0.1`, `0.2`, `0.25`, `0.7`, `1.2`, `1.5` of a
dimension) are modelled as exact rational floors (`x * k / d` in `Nat`); the
Python source computes them through binary floating point, which can differ by
one pixel for some inputs, a difference none of the verified claims depends on.
-/

/-! ## Layout constants (`simple_bot.py`, module header) -/

def DEFAULT_FONT_SIZE : Nat := 90

def MIN_FONT_SIZE : Nat := 80

def MAX_FONT_SIZE : Nat := 110

def MAX_IMAGES : Nat := 4

/-! ## Python string primitives -/

/-- Characters stripped by Python's `str.strip()` / `str.lstrip()`. -/
def pyIsSpace (c : Char) : Bool :=
  c == ' ' || c == '\t' || c == '\n' || c == '\r' || c == '\x0b' || c == '\x0c'

/-- Python `s.strip()` on a character list. -/
def pyStripL (l : List Char) : List Char :=
  ((l.dropWhile pyIsSpace).reverse.dropWhile pyIsSpace).reverse

/-- Python `s.strip()`. -/
def pyStrip (s : String) : String := ⟨pyStripL s.data⟩

/-- Python `s.split(sep)` for a one-character separator: keeps empty pieces,
    always returns at least one piece. -/
def splitChar (sep : Char) : List Char → List (List Char)
  | [] => [[]]
  | c :: cs =>
    match splitChar sep cs with
    | [] => [[c]]
    | g :: gs => if c == sep then [] :: g :: gs else (c :: g) :: gs

/-- Helper for Python's whitespace `s.split()`: accumulates the current word
    (reversed) and drops empty pieces. -/
def pySplitWsAux : List Char → List Char → List String
  | [], acc => if acc.isEmpty then [] else [⟨acc.reverse⟩]
  | c :: cs, acc =>
    if pyIsSpace c then
      if acc.isEmpty then pySplitWsAux cs [] else ⟨acc.reverse⟩ :: pySplitWsAux cs []
    else pySplitWsAux cs (c :: acc)

/-- Python `s.split()` (split on whitespace runs, no empty pieces). -/
def pySplitWs (s : String) : List String := pySplitWsAux s.data []

/-- Python `sep.join(pieces)`. -/
def joinSep (sep : String) : List String → String
  | [] => ""
  | [w] => w
  | w :: w2 :: ws => w ++ sep ++ joinSep sep (w2 :: ws)

/-- Python `' '.join(words)`. -/
def joinSp (ws : List String) : String := joinSep " " ws

/-- Python `sep.join(pieces)` on character lists. -/
def joinCharSep (sep : List Char) : List (List Char) → List Char
  | [] => []
  | [g] => g
  | g :: g2 :: gs => g ++ sep ++ joinCharSep sep (g2 :: gs)

/-- Python `s.endswith('.')` on a character list. -/
def endsWithDot (l : List Char) : Bool :=
  match l.getLast? with
  | some c => c == '.'
  | none => false

/-! ## `process_arabic_text` (simple_bot.py lines 107-141) -/

/-- Embedding of `process_arabic_text`: preserve the leading whitespace run,
    split the rest on `'.'`, strip each piece, drop empty pieces, reverse the
    order, rejoin with `'. '`, and restore a trailing `'.'` when the stripped
    input ended with one. -/
def process_arabic_text (text : String) : String :=
  let d := text.data
  let strippedD := d.dropWhile pyIsSpace
  let leading := d.take (d.length - strippedD.length)
  let sentences := ((splitChar '.' strippedD).map pyStripL).filter (fun g => g ≠ [])
  let rtl := joinCharSep ('.' :: [' ']) sentences.reverse
  let rtl2 := if endsWithDot strippedD then rtl ++ ['.'] else rtl
  ⟨leading ++ rtl2⟩

/-- Claim C8's description of the shaper, following the spec's words exactly:
    split on `'.'`, strip, drop empties, reverse, rejoin with `'. '` and
    prepend the original leading whitespace run - with no other step. -/
def shaperClaimC8 (text : String) : String :=
  let d := text.data
  let leading := d.takeWhile pyIsSpace
  let sentences := ((splitChar '.' (d.dropWhile pyIsSpace)).map pyStripL).filter (fun g => g ≠ [])
  ⟨leading ++ joinCharSep ('.' :: [' ']) sentences.reverse⟩

/-- Amended description of the shaper: as `shaperClaimC8`, plus the trailing
    period restoration the source performs when the stripped input ends in
    `'.'`. -/
def shaperAmendedC8 (text : String) : String :=
  let d := text.data
  let leading := d.takeWhile pyIsSpace
  let strippedD := d.dropWhile pyIsSpace
  let sentences := ((splitChar '.' strippedD).map pyStripL).filter (fun g => g ≠ [])
  let rtl := joinCharSep ('.' :: [' ']) sentences.reverse
  let rtl2 := if endsWithDot strippedD then rtl ++ ['.'] else rtl
  ⟨leading ++ rtl2⟩

/-! ## `justify_line` (simple_bot.py lines 143-193)

The abstract measurement `m : String → Nat` stands for
`draw_obj.textlength(text, font)` at the fixed font of the call. -/

/-- A run of `n` space characters. -/
def spaceStr (n : Nat) : String := ⟨List.replicate n ' '⟩

/-- The justified tail built by the Python loop `for i in range(1, len(words))`:
    gap number `i` (1-indexed) receives `1 + perGap` spaces, plus one more while
    `i <= rem`. -/
def buildJustified (perGap rem : Nat) : Nat → List String → String
  | _, [] => ""
  | i, w :: rest =>
    spaceStr (1 + perGap + (if i ≤ rem then 1 else 0)) ++ w ++ buildJustified perGap rem (i + 1) rest

/-- Embedding of `justify_line`: single-space join for at most one word, for a
    non-positive extra-space need, and for a non-positive space width;
    otherwise distribute `floor(extra / spaceWidth)` whole extra space units
    over the `len(words) - 1` gaps. -/
def justify_line (m : String → Nat) (words : List String) (target_width : Nat) : String :=
  if words.length ≤ 1 then joinSp words
  else
    let words_width := (words.map m).sum
    let space_char_width := m " "
    let normal_spaces_width := (words.length - 1) * space_char_width
    if target_width ≤ words_width + normal_spaces_width then joinSp words
    else if 0 < space_char_width then
      let extra_spaces_total := (target_width - words_width - normal_spaces_width) / space_char_width
      let gaps := words.length - 1
      if 0 < gaps then
        match words with
        | [] => joinSp words
        | w0 :: rest =>
          w0 ++ buildJustified (extra_spaces_total / gaps) (extra_spaces_total % gaps) 1 rest
      else joinSp words
    else joinSp words

/-- Claim C4's formula for the justifier, following the spec's words: compute
    `extra = target - Σ measure(word) - (count-1)·measure(' ')` over the
    integers, fall back to the single-space join when `extra ≤ 0`, otherwise
    insert `floor(extra / measure(' '))` extra space units split as
    `perGap = units div gaps`, `remainder = units mod gaps`, the first
    `remainder` gaps (1-indexed) one additional space each. -/
def justifySpecC4 (m : String → Nat) (words : List String) (target_width : Nat) : String :=
  match words with
  | [] => joinSp ([] : List String)
  | [w] => w
  | w0 :: w1 :: rest =>
    let wordsWidth := ((w0 :: w1 :: rest).map m).sum
    let spaceUnit := m " "
    let gaps := rest.length + 1
    let extra : Int := (target_width : Int) - (wordsWidth : Int) - (gaps : Int) * (spaceUnit : Int)
    if extra ≤ 0 then joinSp (w0 :: w1 :: rest)
    else
      let extraUnits := extra.toNat / spaceUnit
      w0 ++ buildJustified (extraUnits / gaps) (extraUnits % gaps) 1 (w1 :: rest)

/-- Collapse every maximal run of spaces to one space; the flag records whether
    the previously emitted character was a space. -/
def collapseAux : Bool → List Char → List Char
  | _, [] => []
  | b, c :: cs =>
    if c == ' ' then (if b then collapseAux true cs else ' ' :: collapseAux true cs)
    else c :: collapseAux false cs

/-- Collapse every maximal run of spaces in a string to a single space. -/
def collapseSpaces (s : String) : String := ⟨collapseAux false s.data⟩

/-- Word lists coming from Python's whitespace `split()`: every element is a
    nonempty token holding no space character. -/
def goodWords (ws : List String) : Prop := ∀ x ∈ ws, x ≠ "" ∧ ' ' ∉ x.data

/-- Number of space characters in a string. -/
def spaceCount (s : String) : Nat := s.data.count ' '

/-! ## Greedy line wrapping (simple_bot.py lines 326-345 and 362-393)

Both the title loop and the body loop accumulate words greedily: the first
word of a line is placed unconditionally, each further word is placed when the
tentative line passes the width check `fits`, otherwise the line is closed and
the word opens the next line. -/

/-- One greedy wrapping pass: `cur` is the (nonempty) line being accumulated. -/
def wrapGo (fits : List String → Bool) : List String → List String → List (List String)
  | cur, [] => [cur]
  | cur, w :: rest =>
    if fits (cur ++ [w]) then wrapGo fits (cur ++ [w]) rest
    else cur :: wrapGo fits [w] rest

/-- Greedy wrap of a word list into lines. -/
def wrapWords (fits : List String → Bool) : List String → List (List String)
  | [] => []
  | w :: rest => wrapGo fits [w] rest

/-! ## `parse_title_and_text` (simple_bot.py lines 195-215) -/

/-- Embedding of `parse_title_and_text`: strip the input, split on newlines,
    the first line (stripped) is the title, the rest (rejoined and stripped)
    the body. -/
def parse_title_and_text (input_text : String) : String × String :=
  let lines := (splitChar '\n' (pyStrip input_text).data).map String.mk
  match lines with
  | [] => ("", "")
  | first :: rest => (pyStrip first, pyStrip (joinSep "\n" rest))

/-! ## `get_wrapped_text_and_height` (simple_bot.py lines 315-407)

`m : Nat → String → Nat` is the abstract measurement family:
`m size text` stands for `draw.textlength(text, font-of-that-size)`. -/

/-- One wrapped line with the flags the source stores in `line_info`. -/
structure LineInfo where
  is_empty : Bool
  is_title : Bool
  is_last_in_paragraph : Bool
  words : List String
deriving DecidableEq

/-- The empty line the source records for blank lines. -/
def blankInfo : LineInfo := ⟨true, false, true, []⟩

/-- Flag the wrapped lines of one title or one paragraph: every line but the
    last is not last-in-paragraph. -/
def markLines (isTitle : Bool) : List (List String) → List LineInfo
  | [] => []
  | [ws] => [⟨false, isTitle, true, ws⟩]
  | ws :: ws2 :: rest => ⟨false, isTitle, false, ws⟩ :: markLines isTitle (ws2 :: rest)

/-- Title font size: `int(font_size * 1.2)` (exact rational floor). -/
def titleSize (s : Nat) : Nat := s * 12 / 10

/-- Line height: `int(font.size * 1.5)`. -/
def lineHeight (s : Nat) : Nat := 3 * s / 2

/-- Width check of the title loop: the tentative joined title line measured at
    the bold title font against `0.7` of the background width. -/
def titleFits (m : Nat → String → Nat) (width s : Nat) (ws : List String) : Bool :=
  decide (m (titleSize s) (joinSp ws) ≤ width * 7 / 10)

/-- Width check of the body loop: the tentative joined line is first shaped by
    `process_arabic_text`, then measured against the usable width. -/
def bodyFits (m : Nat → String → Nat) (maxW s : Nat) (ws : List String) : Bool :=
  decide (m s (process_arabic_text (joinSp ws)) ≤ maxW)

/-- Wrapped body lines of one source paragraph: blank paragraphs give one
    blank line, others are wrapped greedily over their `split(' ')` words. -/
def paragraphInfos (m : Nat → String → Nat) (maxW s : Nat) (p : String) : List LineInfo :=
  if pyStrip p = "" then [blankInfo]
  else markLines false (wrapWords (bodyFits m maxW s) ((splitChar ' ' p.data).map String.mk))

/-- The `line_info` list produced by `get_wrapped_text_and_height`: wrapped
    title lines (plus one blank line) when a title part exists, then the
    wrapped body paragraphs. -/
def wrapInfos (m : Nat → String → Nat) (width maxW s : Nat) (full_text : String) : List LineInfo :=
  let parsed := parse_title_and_text full_text
  let titleInfos :=
    if parsed.1 = "" then []
    else markLines true (wrapWords (titleFits m width s) (pySplitWs parsed.1)) ++ [blankInfo]
  let bodyInfos :=
    if parsed.2 = "" then []
    else ((splitChar '\n' parsed.2.data).map String.mk).map (paragraphInfos m maxW s) |>.flatten
  titleInfos ++ bodyInfos

/-- Vertical slot of one line: title lines use the title line height, all
    other lines (body and blank) the body line height. -/
def lineSlot (lh tlh : Nat) (i : LineInfo) : Nat := if i.is_title then tlh else lh

/-- The `total_text_height` of `get_wrapped_text_and_height` (when no title
    part exists the source sets the title line height to the body line
    height). -/
def totalHeightAt (m : Nat → String → Nat) (width maxW s : Nat) (full_text : String) : Nat :=
  ((wrapInfos m width maxW s full_text).map
    (lineSlot (lineHeight s)
      (if (parse_title_and_text full_text).1 = "" then lineHeight s
       else lineHeight (titleSize s)))).sum

/-! ## `create_text_image` (simple_bot.py lines 250-449): font-size search and
pagination -/

/-- The combined text `create_text_image` builds from title and body. -/
def fullTextOf (title text : String) : String :=
  if text = "" then title else title ++ "\n\n" ++ text

/-- Usable text width: background width minus left and right padding (each
    one tenth of the width). -/
def maxWOf (width : Nat) : Nat := width - (width / 10 + width / 10)

/-- Usable text height per image: background height minus top padding (one
    quarter) and bottom padding (one fifth). -/
def perImageHeight (height : Nat) : Nat := height - (height / 4 + height / 5)

/-- The number of images the wrapped text needs at font size `s`:
    `ceil(total_text_height / max_text_height_per_image)` as the source
    computes it. -/
def pagesNeededAt (m : Nat → String → Nat) (width height s : Nat) (full_text : String) : Nat :=
  (totalHeightAt m width (maxWOf width) s full_text + perImageHeight height - 1)
    / perImageHeight height

/-- Initial font size by word-count tiering (simple_bot.py lines 291-301). -/
def fontSize0 (full_text : String) : Nat :=
  if (pySplitWs full_text).length < 100 then MAX_FONT_SIZE
  else if (pySplitWs full_text).length < 200 then DEFAULT_FONT_SIZE
  else MIN_FONT_SIZE

/-- The `while font_size > MIN_FONT_SIZE` search loop, with explicit fuel
    (the loop decrements by one, so fuel `s` suffices from start size `s`):
    stop at the first size that needs at most `MAX_IMAGES` images, or at
    `MIN_FONT_SIZE`. -/
def loopSizeFuel (pages : Nat → Nat) : Nat → Nat → Nat
  | 0, s => s
  | fuel + 1, s =>
    if MIN_FONT_SIZE < s then
      (if pages s ≤ MAX_IMAGES then s else loopSizeFuel pages fuel (s - 1))
    else s

/-- The font size at which the search loop exits. -/
def chosenSize (pages : Nat → Nat) (s0 : Nat) : Nat := loopSizeFuel pages s0 s0

/-- Splitting a list into chunks of `n` (fuel-driven so the definition is
    structural; with `n = 0` the Python source raises, the model returns the
    rest as one chunk once the fuel runs out). -/
def chunksGo (n : Nat) : Nat → List α → List (List α)
  | _, [] => []
  | 0, l => [l]
  | fuel + 1, l => l.take n :: chunksGo n fuel (l.drop n)

/-- Split a list into consecutive chunks of `n`. -/
def chunks (n : Nat) (l : List α) : List (List α) := chunksGo n l.length l

/-- Pagination (simple_bot.py lines 443-449): chunk the wrapped lines into
    groups of `linesPerPage` and keep at most `maxPages` groups. -/
def paginate (l : List α) (linesPerPage maxPages : Nat) : List (List α) :=
  (chunks linesPerPage l).take maxPages

/-- The rendered text of a wrapped line (`' '.join(words)`, `''` for blanks). -/
def lineText (i : LineInfo) : String := joinSp i.words

/-- The pages of rendered lines produced for font size `s`. -/
def renderPages (m : Nat → String → Nat) (width height s : Nat) (full_text : String) :
    List (List String) :=
  let infos := wrapInfos m width (maxWOf width) s full_text
  let maxLines := perImageHeight height / lineHeight s
  paginate (infos.map lineText) maxLines MAX_IMAGES

/-- Embedding of the layout core of `create_text_image`: pick the font size by
    the search loop; if it bottoms out at `MIN_FONT_SIZE` re-check there and
    return the empty list when the text still needs more than `MAX_IMAGES`
    images; otherwise paginate the accepted wrap. The returned pages of
    rendered lines stand for the saved images. -/
def create_text_image (m : Nat → String → Nat) (title text : String)
    (width height : Nat) : List (List String) :=
  let full_text := fullTextOf title text
  let pages := fun s => pagesNeededAt m width height s full_text
  let sChosen := chosenSize pages (fontSize0 full_text)
  if sChosen ≤ MIN_FONT_SIZE then
    if MAX_IMAGES < pages MIN_FONT_SIZE then []
    else renderPages m width height MIN_FONT_SIZE full_text
  else renderPages m width height sChosen full_text

/-- The font size whose wrap the source renders (the loop exit size, or the
    minimum size after the final re-check). -/
def acceptedSize (m : Nat → String → Nat) (title text : String)
    (width height : Nat) : Nat :=
  let full_text := fullTextOf title text
  let sChosen := chosenSize (fun s => pagesNeededAt m width height s full_text) (fontSize0 full_text)
  if sChosen ≤ MIN_FONT_SIZE then MIN_FONT_SIZE else sChosen

/-- The `line_info` list of the wrap the source renders. -/
def acceptedInfos (m : Nat → String → Nat) (title text : String)
    (width height : Nat) : List LineInfo :=
  wrapInfos m width (maxWOf width) (acceptedSize m title text width height)
    (fullTextOf title text)

/-- A concrete character-count measurement for counterexamples and witnesses. -/
def lenMeasure : Nat → String → Nat := fun _ s => s.data.length

/-! ## Verified properties -/

lemma take_sub_dropWhile (p : Char → Bool) (l : List Char) :
    l.take (l.length - (l.dropWhile p).length) = l.takeWhile p := by
  induction l with
  | nil => rfl
  | cons c cs ih =>
    cases hp : p c with
    | false =>
      simp [List.dropWhile, List.takeWhile, hp]
    | true =>
      have hle : (cs.dropWhile p).length ≤ cs.length :=
        List.Sublist.length_le (List.dropWhile_sublist p)
      have harith : (c :: cs).length - ((c :: cs).dropWhile p).length
          = (cs.length - (cs.dropWhile p).length) + 1 := by
        simp only [List.dropWhile, hp, List.length_cons]
        omega
      rw [harith]
      simp [List.takeWhile, hp, ih]

/-- C8 counterexample input: on `"a. b."` the source restores the trailing
    period, the claim's formula does not. -/
theorem c8_shaper_counterexample :
    process_arabic_text "a. b." ≠ shaperClaimC8 "a. b." := by decide

/-- C8 (amended): `process_arabic_text` splits on `'.'`, strips each segment,
    drops empty segments, reverses the order, rejoins with `'. '`, prepends the
    preserved leading whitespace run, and additionally restores a trailing
    `'.'` exactly when the stripped input ends with one. -/
theorem c8_shaper_matches_amended_spec (text : String) :
    process_arabic_text text = shaperAmendedC8 text := by
  unfold process_arabic_text shaperAmendedC8
  simp only [take_sub_dropWhile]

/-- Claim C4: with at least two words and a positive space width,
    `justify_line` computes exactly the spec's formula. -/
theorem c4_justify_matches_formula (m : String → Nat) (ws : List String) (t : Nat)
    (h2 : 2 ≤ ws.length) (hsp : 0 < m " ") :
    justify_line m ws t = justifySpecC4 m ws t := by
  obtain ⟨w0, w1, rest, rfl⟩ : ∃ w0 w1 rest, ws = w0 :: w1 :: rest := by
    match ws, h2 with
    | w0 :: w1 :: rest, _ => exact ⟨w0, w1, rest, rfl⟩
  simp only [justify_line, justifySpecC4, List.length_cons]
  set sp := m " " with hspdef
  set ww := ((w0 :: w1 :: rest).map m).sum with hwwdef
  set n := rest.length with hndef
  have h1 : ¬ (n + 1 + 1 ≤ 1) := by omega
  rw [if_neg h1]
  have h2g : n + 1 + 1 - 1 = n + 1 := by omega
  rw [h2g]
  set nw := (n + 1) * sp with hnwdef
  have hcast : (((n + 1 : Nat)) : Int) * (sp : Int) = (nw : Int) := by
    rw [hnwdef]; push_cast; ring
  rw [hcast]
  by_cases hbr : t ≤ ww + nw
  · have hc : (t : Int) - (ww : Int) - (nw : Int) ≤ 0 := by omega
    rw [if_pos hbr, if_pos hc]
  · have hc : ¬ ((t : Int) - (ww : Int) - (nw : Int) ≤ 0) := by omega
    have htonat : ((t : Int) - (ww : Int) - (nw : Int)).toNat = t - ww - nw := by omega
    rw [if_neg hbr, if_neg hc, if_pos hsp]
    have hposg : 0 < n + 1 := by omega
    rw [if_pos hposg, htonat]

/-! ## Space collapsing and space counting for the justifier claims -/

lemma strData_append (s t : String) : (s ++ t).data = s.data ++ t.data := rfl

lemma collapseAux_cons_ne (b : Bool) (c : Char) (cs : List Char) (h : (c == ' ') = false) :
    collapseAux b (c :: cs) = c :: collapseAux false cs := by
  simp [collapseAux, h]

lemma collapseAux_word : ∀ (w : List Char) (b : Bool) (l : List Char),
    (∀ c ∈ w, ¬ c = ' ') → w ≠ [] →
    collapseAux b (w ++ l) = w ++ collapseAux false l := by
  intro w
  induction w with
  | nil => intro b l _ h; exact absurd rfl h
  | cons c cs ih =>
    intro b l hw _
    have hc' : (c == ' ') = false := by
      have := hw c (by simp)
      simpa using this
    rw [List.cons_append, collapseAux_cons_ne b c _ hc']
    cases cs with
    | nil => simp
    | cons c2 cs2 =>
      have hrec := ih false l (fun x hx => hw x (by simp [hx])) (by simp)
      rw [hrec]
      simp

lemma collapseAux_true_spaces : ∀ (k : Nat) (l : List Char),
    collapseAux true (List.replicate k ' ' ++ l) = collapseAux true l := by
  intro k
  induction k with
  | zero => intro l; rfl
  | succ k ih => intro l; simp [List.replicate_succ, collapseAux, ih]

lemma collapseAux_false_spaces (k : Nat) (l : List Char) (hk : 0 < k) :
    collapseAux false (List.replicate k ' ' ++ l) = ' ' :: collapseAux true l := by
  cases k with
  | zero => omega
  | succ k => simp [List.replicate_succ, collapseAux, collapseAux_true_spaces]

lemma goodWords_data {ws : List String} (h : goodWords ws) :
    ∀ x ∈ ws, x.data ≠ [] ∧ ∀ c ∈ x.data, ¬ c = ' ' := by
  intro x hx
  obtain ⟨h1, h2⟩ := h x hx
  constructor
  · intro hd
    apply h1
    cases x with
    | mk d => simp_all [String.ext_iff]
  · intro c hc hcs
    exact h2 (hcs ▸ hc)

lemma collapse_join : ∀ (ws : List String) (w : String),
    (∀ x ∈ w :: ws, x.data ≠ [] ∧ ∀ c ∈ x.data, ¬ c = ' ') → ∀ b,
    collapseAux b ((joinSp (w :: ws)).data) = (joinSp (w :: ws)).data := by
  intro ws
  induction ws with
  | nil =>
    intro w hw b
    obtain ⟨h1, h2⟩ := hw w (by simp)
    have := collapseAux_word w.data b [] h2 h1
    simpa [joinSp, joinSep, collapseAux] using this
  | cons w2 ws2 ih =>
    intro w hw b
    obtain ⟨h1, h2⟩ := hw w (by simp)
    have hdata : (joinSp (w :: w2 :: ws2)).data
        = w.data ++ (' ' :: (joinSp (w2 :: ws2)).data) := by
      simp [joinSp, joinSep, strData_append]
    rw [hdata, collapseAux_word w.data b _ h2 h1]
    have hsp1 : (' ' :: (joinSp (w2 :: ws2)).data)
        = List.replicate 1 ' ' ++ (joinSp (w2 :: ws2)).data := by simp
    rw [hsp1, collapseAux_false_spaces 1 _ (by omega)]
    have hrec := ih w2 (fun x hx => hw x (by simp at hx ⊢; tauto)) true
    rw [hrec]
    simp

lemma collapse_build : ∀ (rest : List String) (per rem i : Nat),
    (∀ x ∈ rest, x.data ≠ [] ∧ ∀ c ∈ x.data, ¬ c = ' ') → rest ≠ [] →
    collapseAux false ((buildJustified per rem i rest).data) = ' ' :: (joinSp rest).data := by
  intro rest per rem
  induction rest with
  | nil => intro i _ h; exact absurd rfl h
  | cons w rest2 ih =>
    intro i hw _
    obtain ⟨h1, h2⟩ := hw w (by simp)
    have hdata : (buildJustified per rem i (w :: rest2)).data
        = List.replicate (1 + per + (if i ≤ rem then 1 else 0)) ' '
          ++ (w.data ++ (buildJustified per rem (i + 1) rest2).data) := by
      simp [buildJustified, spaceStr, strData_append]
    rw [hdata, collapseAux_false_spaces _ _ (by omega),
        collapseAux_word w.data true _ h2 h1]
    cases rest2 with
    | nil => simp [buildJustified, joinSp, joinSep, collapseAux]
    | cons w2 rest3 =>
      have hrec := ih (i + 1) (fun x hx => hw x (by simp at hx ⊢; tauto)) (by simp)
      rw [hrec]
      simp [joinSp, joinSep, strData_append]

lemma collapse_justified (w0 : String) (tail : List String) (per rem : Nat)
    (hw : ∀ x ∈ w0 :: tail, x.data ≠ [] ∧ ∀ c ∈ x.data, ¬ c = ' ')
    (htail : tail ≠ []) :
    collapseSpaces (w0 ++ buildJustified per rem 1 tail) = joinSp (w0 :: tail) := by
  obtain ⟨h1, h2⟩ := hw w0 (by simp)
  have hd : (w0 ++ buildJustified per rem 1 tail).data
      = w0.data ++ (buildJustified per rem 1 tail).data := strData_append _ _
  unfold collapseSpaces
  rw [hd, collapseAux_word w0.data false _ h2 h1,
      collapse_build tail per rem 1 (fun x hx => hw x (by simp [hx])) htail]
  cases tail with
  | nil => exact absurd rfl htail
  | cons w2 rest => simp [joinSp, joinSep, strData_append, String.ext_iff]

lemma collapse_join_str (ws : List String) (h : goodWords ws) :
    collapseSpaces (joinSp ws) = joinSp ws := by
  cases ws with
  | nil => rfl
  | cons w rest =>
    unfold collapseSpaces
    rw [collapse_join rest w (goodWords_data h) false]

/-- Claim C5: collapsing every maximal space run in the output of
    `justify_line` recovers exactly the single-space join of the original
    words, for every list of genuine words (nonempty, space-free tokens). -/
theorem c5_justify_collapse (m : String → Nat) (ws : List String) (t : Nat)
    (hws : goodWords ws) :
    collapseSpaces (justify_line m ws t) = joinSp ws := by
  match ws with
  | [] => rfl
  | [w] =>
    have := collapse_join_str [w] hws
    simpa [justify_line] using this
  | w0 :: w1 :: rest =>
    have hjoin := collapse_join_str (w0 :: w1 :: rest) hws
    simp only [justify_line, List.length_cons]
    have h1 : ¬ (rest.length + 1 + 1 ≤ 1) := by omega
    rw [if_neg h1]
    split_ifs with hb1 hb2 hb3
    · exact hjoin
    · exact collapse_justified w0 (w1 :: rest) _ _ (goodWords_data hws) (by simp)
    · exact hjoin
    · exact hjoin

lemma spaceCount_append (s t : String) :
    spaceCount (s ++ t) = spaceCount s + spaceCount t := by
  simp [spaceCount, strData_append, List.count_append]

lemma spaceCount_spaceStr (k : Nat) : spaceCount (spaceStr k) = k := by
  simp [spaceCount, spaceStr]

lemma spaceCount_word (w : String) (h : ' ' ∉ w.data) : spaceCount w = 0 := by
  simp [spaceCount, List.count_eq_zero, h]

lemma count_build_le : ∀ (rest : List String) (per rem i : Nat),
    (∀ x ∈ rest, ' ' ∉ x.data) →
    spaceCount (buildJustified per rem i rest)
      ≤ rest.length * (1 + per) + (rem + 1 - i) := by
  intro rest per rem
  induction rest with
  | nil => intro i _; simp [buildJustified, spaceCount]
  | cons w rest2 ih =>
    intro i hw
    have hcnt : spaceCount (buildJustified per rem i (w :: rest2))
        = (1 + per + (if i ≤ rem then 1 else 0))
          + spaceCount (buildJustified per rem (i + 1) rest2) := by
      simp only [buildJustified, spaceCount_append, spaceCount_spaceStr,
        spaceCount_word w (hw w (by simp))]
      omega
    have hrec := ih (i + 1) (fun x hx => hw x (by simp [hx]))
    have hexp : (w :: rest2).length * (1 + per)
        = rest2.length * (1 + per) + (1 + per) := by
      simp [List.length_cons]
      ring
    rw [hcnt, hexp]
    by_cases hi : i ≤ rem <;> simp only [hi, if_true, if_false] <;> omega

/-- Claim C10: when at least two space-free words need extra space at a
    positive space width, the additively measured width of the justified line
    (word widths plus space count times space width) never exceeds the target,
    because only `floor(extra / spaceWidth)` whole space units are inserted. -/
theorem c10_justify_no_overshoot (m : String → Nat) (ws : List String) (t : Nat)
    (h2 : 2 ≤ ws.length) (hnos : ∀ x ∈ ws, ' ' ∉ x.data) (hsp : 0 < m " ")
    (hex : (ws.map m).sum + (ws.length - 1) * m " " < t) :
    (ws.map m).sum + spaceCount (justify_line m ws t) * m " " ≤ t := by
  obtain ⟨w0, w1, rest, rfl⟩ : ∃ w0 w1 rest, ws = w0 :: w1 :: rest := by
    match ws, h2 with
    | w0 :: w1 :: rest, _ => exact ⟨w0, w1, rest, rfl⟩
  simp only [justify_line, List.length_cons]
  set sp := m " " with hspdef
  set ww := ((w0 :: w1 :: rest).map m).sum with hwwdef
  set n := rest.length with hndef
  have h1 : ¬ (n + 1 + 1 ≤ 1) := by omega
  rw [if_neg h1]
  have h2g : n + 1 + 1 - 1 = n + 1 := by omega
  rw [h2g]
  set nw := (n + 1) * sp with hnwdef
  have hb1 : ¬ (t ≤ ww + nw) := by
    simp only [List.length_cons, ← hndef, ← hwwdef, ← hspdef, h2g, ← hnwdef] at hex
    omega
  rw [if_neg hb1, if_pos hsp, if_pos (show 0 < n + 1 by omega)]
  set units := (t - ww - nw) / sp with hunits
  have hcnt : spaceCount (w0 ++ buildJustified (units / (n + 1)) (units % (n + 1)) 1 (w1 :: rest))
      ≤ (n + 1) + units := by
    rw [spaceCount_append, spaceCount_word w0 (hnos w0 (by simp))]
    have := count_build_le (w1 :: rest) (units / (n + 1)) (units % (n + 1)) 1
      (fun x hx => hnos x (by simp at hx ⊢; tauto))
    have hdm : (n + 1) * (units / (n + 1)) + units % (n + 1) = units :=
      Nat.div_add_mod units (n + 1)
    simp only [List.length_cons, ← hndef] at this
    calc 0 + spaceCount (buildJustified (units / (n + 1)) (units % (n + 1)) 1 (w1 :: rest))
        ≤ (n + 1) * (1 + units / (n + 1)) + (units % (n + 1) + 1 - 1) := by omega
      _ = (n + 1) + ((n + 1) * (units / (n + 1)) + units % (n + 1)) := by ring_nf; omega
      _ = (n + 1) + units := by rw [hdm]
  have hle : units * sp ≤ t - ww - nw := Nat.div_mul_le_self _ _
  calc ww + spaceCount (w0 ++ buildJustified (units / (n + 1)) (units % (n + 1)) 1 (w1 :: rest)) * sp
      ≤ ww + ((n + 1) + units) * sp := by
        exact Nat.add_le_add_left (Nat.mul_le_mul_right sp hcnt) ww
    _ = ww + nw + units * sp := by rw [hnwdef]; ring
    _ ≤ t := by omega

lemma wrapGo_join (fits : List String → Bool) :
    ∀ (rest cur : List String), (wrapGo fits cur rest).flatten = cur ++ rest := by
  intro rest
  induction rest with
  | nil => intro cur; simp [wrapGo]
  | cons w rest2 ih =>
    intro cur
    by_cases hf : fits (cur ++ [w]) = true
    · simp [wrapGo, hf, ih]
    · simp only [wrapGo, hf, if_false, Bool.false_eq_true]
      simp [ih]

/-- Claim C2: wrapping preserves the word sequence - joining the word lists of
    the produced lines, in order, gives back the original word list. -/
theorem c2_wrap_preserves_words (fits : List String → Bool) (paragraph : String) :
    (wrapWords fits ((splitChar ' ' paragraph.data).map String.mk)).flatten
      = (splitChar ' ' paragraph.data).map String.mk := by
  cases h : (splitChar ' ' paragraph.data).map String.mk with
  | nil => rfl
  | cons w rest => simp [wrapWords, wrapGo_join]

lemma wrapGo_fits (fits : List String → Bool) :
    ∀ (rest cur : List String), (2 ≤ cur.length → fits cur = true) →
    ∀ l ∈ wrapGo fits cur rest, 2 ≤ l.length → fits l = true := by
  intro rest
  induction rest with
  | nil =>
    intro cur hcur l hl
    simp only [wrapGo, List.mem_singleton] at hl
    exact hl ▸ hcur
  | cons w rest2 ih =>
    intro cur hcur l hl
    by_cases hf : fits (cur ++ [w]) = true
    · simp only [wrapGo, hf, if_true] at hl
      exact ih (cur ++ [w]) (fun _ => hf) l hl
    · simp only [wrapGo, hf, if_false, List.mem_cons, Bool.false_eq_true] at hl
      cases hl with
      | inl h => exact h ▸ hcur
      | inr h => exact ih [w] (by intro hlen; simp at hlen) l h

lemma wrapWords_fits (fits : List String → Bool) (ws : List String) :
    ∀ l ∈ wrapWords fits ws, 2 ≤ l.length → fits l = true := by
  cases ws with
  | nil => intro l hl; simp [wrapWords] at hl
  | cons w rest =>
    exact wrapGo_fits fits rest [w] (by intro hlen; simp at hlen)

/-! ## Greedy dominance: a uniformly easier width check never produces more
lines. This backs the font-size monotonicity claim. -/

lemma wrapGo_dominance (fits fits' : List String → Bool)
    (hyp : ∀ p l, fits (p ++ l) = true → fits' l = true) :
    ∀ xs : List String,
      (∀ cur p, (wrapGo fits' (p ++ cur) xs).length
          ≤ (wrapGo fits cur xs).length + (if p = [] then 0 else 1))
      ∧ (∀ cur p, (wrapGo fits' cur xs).length ≤ (wrapGo fits (p ++ cur) xs).length) := by
  intro xs
  induction xs with
  | nil =>
    constructor
    · intro cur p
      simp only [wrapGo, List.length_singleton]
      split_ifs <;> omega
    · intro cur p
      simp only [wrapGo, List.length_singleton]
      omega
  | cons w xs2 ih =>
    obtain ⟨ihD, ihE⟩ := ih
    constructor
    · intro cur p
      by_cases hf : fits (cur ++ [w]) = true
      · by_cases hp : p = []
        · subst hp
          have hf' : fits' (cur ++ [w]) = true := hyp [] _ (by simpa using hf)
          simp only [wrapGo, List.nil_append, hf, hf', if_true]
          have := ihD (cur ++ [w]) []
          simpa using this
        · by_cases hf' : fits' ((p ++ cur) ++ [w]) = true
          · simp only [wrapGo, hf, hf', if_true]
            have h1 : (p ++ cur) ++ [w] = p ++ (cur ++ [w]) := by simp
            rw [h1]
            have := ihD (cur ++ [w]) p
            simp only [hp, if_false] at this ⊢
            simpa using this
          · simp only [wrapGo, hf, hf', if_true, if_false, Bool.false_eq_true]
            simp only [List.length_cons, hp, if_false]
            have := ihE [w] cur
            omega
      · by_cases hf' : fits' ((p ++ cur) ++ [w]) = true
        · simp only [wrapGo, hf, hf', if_true, if_false, Bool.false_eq_true]
          have := ihD [w] (p ++ cur)
          simp only [List.nil_append] at this
          simp only [List.length_cons]
          split_ifs at this <;> split_ifs <;> omega
        · simp only [wrapGo, hf, hf', if_false, Bool.false_eq_true]
          simp only [List.length_cons]
          have := ihD [w] []
          simp only [List.nil_append, eq_self_iff_true, if_true] at this
          split_ifs <;> omega
    · intro cur p
      by_cases hf : fits ((p ++ cur) ++ [w]) = true
      · have hf' : fits' (cur ++ [w]) = true := by
          apply hyp p
          rw [← List.append_assoc]
          exact hf
        simp only [wrapGo, hf, hf', if_true]
        have h1 : (p ++ cur) ++ [w] = p ++ (cur ++ [w]) := by simp
        rw [h1]
        exact ihE (cur ++ [w]) p
      · by_cases hf' : fits' (cur ++ [w]) = true
        · simp only [wrapGo, hf, hf', if_true, if_false, Bool.false_eq_true]
          have := ihD [w] cur
          simp only [List.nil_append] at this
          simp only [List.length_cons]
          split_ifs at this <;> omega
        · simp only [wrapGo, hf, hf', if_false, Bool.false_eq_true]
          simp only [List.length_cons]
          have := ihD [w] []
          simp only [List.nil_append, eq_self_iff_true, if_true] at this
          omega

lemma wrapWords_dominance (fits fits' : List String → Bool)
    (hyp : ∀ p l, fits (p ++ l) = true → fits' l = true) (ws : List String) :
    (wrapWords fits' ws).length ≤ (wrapWords fits ws).length := by
  cases ws with
  | nil => simp [wrapWords]
  | cons w rest =>
    have := (wrapGo_dominance fits fits' hyp rest).1 [w] []
    simpa [wrapWords] using this

/-! ## Pagination properties (claim C6) -/

lemma chunksGo_take_flatten {α : Type} (n : Nat) (hn : 1 ≤ n) :
    ∀ (fuel : Nat) (l : List α) (k : Nat), l.length ≤ fuel →
    ((chunksGo n fuel l).take k).flatten = l.take (k * n) := by
  intro fuel
  induction fuel with
  | zero =>
    intro l k hl
    have : l = [] := List.eq_nil_of_length_eq_zero (by omega)
    subst this
    simp [chunksGo]
  | succ fuel ih =>
    intro l k hl
    cases l with
    | nil => simp [chunksGo]
    | cons x xs =>
      cases k with
      | zero => simp
      | succ k =>
        have hdrop : ((x :: xs).drop n).length ≤ fuel := by
          simp only [List.length_drop, List.length_cons]
          simp only [List.length_cons] at hl
          omega
        have hrec := ih ((x :: xs).drop n) k hdrop
        have hadd : (k + 1) * n = n + k * n := by ring
        simp only [chunksGo, List.take_succ_cons, List.flatten_cons, hrec, hadd,
          List.take_add]

lemma chunksGo_mem_length {α : Type} (n : Nat) (hn : 1 ≤ n) :
    ∀ (fuel : Nat) (l : List α), l.length ≤ fuel →
    ∀ c ∈ chunksGo n fuel l, c.length ≤ n := by
  intro fuel
  induction fuel with
  | zero =>
    intro l hl c hc
    have : l = [] := List.eq_nil_of_length_eq_zero (by omega)
    subst this
    simp [chunksGo] at hc
  | succ fuel ih =>
    intro l hl c hc
    cases l with
    | nil => simp [chunksGo] at hc
    | cons x xs =>
      simp only [chunksGo, List.mem_cons] at hc
      cases hc with
      | inl h => subst h; simp [List.length_take_le]
      | inr h =>
        apply ih ((x :: xs).drop n) _ c h
        simp only [List.length_drop, List.length_cons]
        simp only [List.length_cons] at hl
        omega

/-- Claim C6: with a positive page capacity, pagination returns at most
    `maxPages` pages of at most `linesPerPage` lines each, in order; the pages
    flatten to the first `maxPages * linesPerPage` input lines, so nothing is
    dropped unless the page limit truncates, and then exactly the trailing
    overflow is dropped. -/
theorem c6_paginate_spec {α : Type} (l : List α) (n maxP : Nat) (hn : 1 ≤ n) :
    (paginate l n maxP).length ≤ maxP ∧
    (paginate l n maxP).flatten = l.take (maxP * n) ∧
    (l.length ≤ maxP * n → (paginate l n maxP).flatten = l) ∧
    (∀ c ∈ paginate l n maxP, c.length ≤ n) := by
  refine ⟨?_, ?_, ?_, ?_⟩
  · simp [paginate, List.length_take]
  · exact chunksGo_take_flatten n hn l.length l maxP (le_refl _)
  · intro hlen
    have h2 := chunksGo_take_flatten n hn l.length l maxP (le_refl _)
    unfold paginate chunks
    rw [h2]
    exact List.take_of_length_le hlen
  · intro c hc
    exact chunksGo_mem_length n hn l.length l (le_refl _) c
      (List.take_subset _ _ hc)

/-- Witness for C6 at a concrete input. -/
theorem c6_paginate_spec_witness :
    (1 : Nat) ≤ 2 ∧
    ((paginate ["a", "b", "c"] 2 1).length ≤ 1 ∧
    (paginate ["a", "b", "c"] 2 1).flatten = ["a", "b", "c"].take (1 * 2) ∧
    (["a", "b", "c"].length ≤ 1 * 2 → (paginate ["a", "b", "c"] 2 1).flatten = ["a", "b", "c"]) ∧
    (∀ c ∈ paginate ["a", "b", "c"] 2 1, c.length ≤ 2)) :=
  ⟨by decide, c6_paginate_spec ["a", "b", "c"] 2 1 (by decide)⟩

/-! ## Width bounds of the accepted wrap (claim C3) -/

lemma markLines_mem (b : Bool) :
    ∀ (L : List (List String)) (i : LineInfo), i ∈ markLines b L →
    i.is_title = b ∧ i.is_empty = false ∧ i.words ∈ L := by
  intro L
  induction L with
  | nil => intro i hi; simp [markLines] at hi
  | cons ws tail ih =>
    intro i hi
    cases tail with
    | nil =>
      simp only [markLines, List.mem_singleton] at hi
      subst hi
      simp
    | cons ws2 rest =>
      simp only [markLines, List.mem_cons] at hi
      cases hi with
      | inl h => subst h; simp
      | inr h =>
        obtain ⟨h1, h2, h3⟩ := ih i h
        exact ⟨h1, h2, by simp [h3]⟩

/-- Claim C3 (amended): in any wrap produced by `get_wrapped_text_and_height`,
    every line holding at least two words respects its width bound - title
    lines measure within `0.7` of the background width at the title font, body
    lines measure (after shaping) within the usable width. A line holding a
    single word may exceed the bound (the source never breaks inside a word). -/
theorem c3_wrapped_lines_fit (m : Nat → String → Nat) (width maxW s : Nat)
    (full_text : String) :
    ∀ i ∈ wrapInfos m width maxW s full_text, 2 ≤ i.words.length →
      (i.is_title = true → m (titleSize s) (joinSp i.words) ≤ width * 7 / 10) ∧
      (i.is_title = false → m s (process_arabic_text (joinSp i.words)) ≤ maxW) := by
  intro i hi hlen
  unfold wrapInfos at hi
  simp only [List.mem_append] at hi
  cases hi with
  | inl hT =>
    split_ifs at hT with hcond
    · simp at hT
    · simp only [List.mem_append, List.mem_singleton] at hT
      cases hT with
      | inl hmark =>
        obtain ⟨ht, he, hw⟩ := markLines_mem true _ i hmark
        have hfit := wrapWords_fits _ _ i.words hw hlen
        simp only [titleFits, decide_eq_true_eq] at hfit
        refine ⟨fun _ => hfit, fun hc => ?_⟩
        rw [ht] at hc
        cases hc
      | inr hblank =>
        subst hblank
        simp [blankInfo] at hlen
  | inr hB =>
    split_ifs at hB with hcond
    · simp at hB
    · simp only [List.mem_flatten, List.mem_map] at hB
      obtain ⟨block, ⟨p, hp, hblock⟩, hib⟩ := hB
      subst hblock
      unfold paragraphInfos at hib
      split_ifs at hib with hblankp
      · simp only [List.mem_singleton] at hib
        subst hib
        simp [blankInfo] at hlen
      · obtain ⟨ht, he, hw⟩ := markLines_mem false _ i hib
        have hfit := wrapWords_fits _ _ i.words hw hlen
        simp only [bodyFits, decide_eq_true_eq] at hfit
        refine ⟨fun hc => ?_, fun _ => hfit⟩
        rw [ht] at hc
        cases hc

/-- C3 counterexample: for the accepted wrap of the document with title `"t"`
    and a 26-letter single-word body on a 30-pixel-wide canvas, a non-empty
    non-title line measures wider than the usable width - the claim as stated
    (every non-empty line fits) is false. -/
theorem c3_counterexample :
    ((acceptedInfos lenMeasure "t" "abcdefghijklmnopqrstuvwxyz" 30 600).any fun i =>
      !i.is_empty && !i.is_title &&
        decide (maxWOf 30 < lenMeasure
          (acceptedSize lenMeasure "t" "abcdefghijklmnopqrstuvwxyz" 30 600)
          (process_arabic_text (joinSp i.words)))) = true := by decide

/-- Witness for the amended C3 at a concrete input: the wrap of `"a b"` (one
    two-word title line) satisfies the width bounds. -/
theorem c3_wrapped_lines_fit_witness :
    ((⟨false, true, true, ["a", "b"]⟩ : LineInfo) ∈ wrapInfos lenMeasure 100 80 80 "a b") ∧
    (2 ≤ (["a", "b"] : List String).length) ∧
    (((⟨false, true, true, ["a", "b"]⟩ : LineInfo).is_title = true →
        lenMeasure (titleSize 80) (joinSp ["a", "b"]) ≤ 100 * 7 / 10) ∧
      ((⟨false, true, true, ["a", "b"]⟩ : LineInfo).is_title = false →
        lenMeasure 80 (process_arabic_text (joinSp ["a", "b"])) ≤ 80)) :=
  ⟨by decide, by decide,
    c3_wrapped_lines_fit lenMeasure 100 80 80 "a b" ⟨false, true, true, ["a", "b"]⟩
      (by decide) (by decide)⟩

/-! ## Empty-title behaviour (claim C7) -/

/-- C7 counterexample: calling the layout with an empty title and the body
    `"hello\nworld"` produces a wrap whose first line is marked as a title -
    the body's first line is promoted, contradicting the claim that no title
    line is emitted. -/
theorem c7_counterexample :
    ((acceptedInfos lenMeasure "" "hello\nworld" 800 600).any fun i => i.is_title) = true := by
  decide

/-- C7 (amended): an empty title does not suppress the title block - the
    source re-parses the combined text, so laying out an empty title with body
    `text` parses identically to laying out `text` alone, whose first stripped
    line becomes the title part. -/
theorem c7_empty_title_promotes_body (text : String) :
    parse_title_and_text (fullTextOf "" text) = parse_title_and_text text := by
  unfold fullTextOf
  by_cases h : text = ""
  · simp [h]
  · rw [if_neg h]
    have hdata : ("" ++ "\n\n" ++ text).data = '\n' :: '\n' :: text.data := by
      simp [strData_append]
    have hstrip : pyStrip ("" ++ "\n\n" ++ text) = pyStrip text := by
      have h1 : pyIsSpace '\n' = true := rfl
      simp [pyStrip, pyStripL, hdata, List.dropWhile_cons, h1]
    unfold parse_title_and_text
    rw [hstrip]

/-! ## Monotonicity of the font-size search (claims C9 and C1)

The hypotheses on the measurement family `m` state what holds of real font
metrics: widths grow with the font size, and a line is at least as wide as any
trailing part of it (for the shaped strings the two wrapping loops measure). -/

lemma lineHeight_mono {a b : Nat} (h : a ≤ b) : lineHeight a ≤ lineHeight b := by
  unfold lineHeight
  exact Nat.div_le_div_right (by omega)

lemma titleSize_mono {a b : Nat} (h : a ≤ b) : titleSize a ≤ titleSize b := by
  unfold titleSize
  exact Nat.div_le_div_right (by omega)

lemma bodyFits_dom (m : Nat → String → Nat) (maxW : Nat) {a b : Nat} (hab : a ≤ b)
    (Hmono : ∀ u v x, u ≤ v → m u x ≤ m v x)
    (Hext : ∀ u (p l : List String),
      m u (process_arabic_text (joinSp l)) ≤ m u (process_arabic_text (joinSp (p ++ l)))) :
    ∀ p l, bodyFits m maxW b (p ++ l) = true → bodyFits m maxW a l = true := by
  intro p l h
  simp only [bodyFits, decide_eq_true_eq] at h ⊢
  calc m a (process_arabic_text (joinSp l))
      ≤ m b (process_arabic_text (joinSp l)) := Hmono a b _ hab
    _ ≤ m b (process_arabic_text (joinSp (p ++ l))) := Hext b p l
    _ ≤ maxW := h

lemma titleFits_dom (m : Nat → String → Nat) (width : Nat) {a b : Nat} (hab : a ≤ b)
    (Hmono : ∀ u v x, u ≤ v → m u x ≤ m v x)
    (HextT : ∀ u (p l : List String), m u (joinSp l) ≤ m u (joinSp (p ++ l))) :
    ∀ p l, titleFits m width b (p ++ l) = true → titleFits m width a l = true := by
  intro p l h
  simp only [titleFits, decide_eq_true_eq] at h ⊢
  calc m (titleSize a) (joinSp l)
      ≤ m (titleSize b) (joinSp l) := Hmono _ _ _ (titleSize_mono hab)
    _ ≤ m (titleSize b) (joinSp (p ++ l)) := HextT _ p l
    _ ≤ width * 7 / 10 := h

lemma markLines_length (b : Bool) :
    ∀ L : List (List String), (markLines b L).length = L.length := by
  intro L
  induction L with
  | nil => rfl
  | cons ws tail ih =>
    cases tail with
    | nil => rfl
    | cons ws2 rest => simp only [markLines, List.length_cons] at ih ⊢; omega

lemma heightSum_markLines (b : Bool) (lh tlh : Nat) :
    ∀ L : List (List String),
    ((markLines b L).map (lineSlot lh tlh)).sum = L.length * (if b then tlh else lh) := by
  intro L
  induction L with
  | nil => simp [markLines]
  | cons ws tail ih =>
    cases tail with
    | nil => cases b <;> simp [markLines, lineSlot]
    | cons ws2 rest =>
      simp only [markLines, List.map_cons, List.sum_cons, ih, List.length_cons]
      cases b <;> simp [lineSlot] <;> ring

lemma sum_map_flatten {α : Type} (f : α → Nat) :
    ∀ L : List (List α), ((L.flatten).map f).sum = (L.map fun b => (b.map f).sum).sum := by
  intro L
  induction L with
  | nil => rfl
  | cons x xs ih =>
    simp only [List.flatten_cons, List.map_append, List.sum_append, ih, List.map_cons,
      List.sum_cons]

lemma paragraphInfos_height_le (m : Nat → String → Nat) (maxW : Nat) {a b : Nat}
    (hab : a ≤ b) (tlhA tlhB : Nat)
    (Hmono : ∀ u v x, u ≤ v → m u x ≤ m v x)
    (Hext : ∀ u (p l : List String),
      m u (process_arabic_text (joinSp l)) ≤ m u (process_arabic_text (joinSp (p ++ l))))
    (p : String) :
    ((paragraphInfos m maxW a p).map (lineSlot (lineHeight a) tlhA)).sum
      ≤ ((paragraphInfos m maxW b p).map (lineSlot (lineHeight b) tlhB)).sum := by
  unfold paragraphInfos
  split_ifs with hblank
  · simpa [blankInfo, lineSlot] using lineHeight_mono hab
  · rw [heightSum_markLines, heightSum_markLines]
    simp only [Bool.false_eq_true, if_false]
    exact Nat.mul_le_mul
      (wrapWords_dominance _ _ (bodyFits_dom m maxW hab Hmono Hext) _)
      (lineHeight_mono hab)

lemma heightSum_markLines_true (lh tlh : Nat) (L : List (List String)) :
    ((markLines true L).map (lineSlot lh tlh)).sum = L.length * tlh := by
  simpa using heightSum_markLines true lh tlh L

lemma bodySum_le (m : Nat → String → Nat) (maxW : Nat) {a b : Nat} (hab : a ≤ b)
    (tlhA tlhB : Nat)
    (Hmono : ∀ u v x, u ≤ v → m u x ≤ m v x)
    (Hext : ∀ u (p l : List String),
      m u (process_arabic_text (joinSp l)) ≤ m u (process_arabic_text (joinSp (p ++ l))))
    (ps : List String) :
    (((ps.map (paragraphInfos m maxW a)).flatten).map (lineSlot (lineHeight a) tlhA)).sum
      ≤ (((ps.map (paragraphInfos m maxW b)).flatten).map (lineSlot (lineHeight b) tlhB)).sum := by
  rw [sum_map_flatten, sum_map_flatten]
  simp only [List.map_map]
  apply List.sum_le_sum
  intro p hp
  simp only [Function.comp_apply]
  exact paragraphInfos_height_le m maxW hab tlhA tlhB Hmono Hext p

lemma wrapInfos_height_le (m : Nat → String → Nat) (width maxW : Nat)
    (full_text : String) {a b : Nat} (hab : a ≤ b) (tlhA tlhB : Nat)
    (htlh : tlhA ≤ tlhB)
    (Hmono : ∀ u v x, u ≤ v → m u x ≤ m v x)
    (Hext : ∀ u (p l : List String),
      m u (process_arabic_text (joinSp l)) ≤ m u (process_arabic_text (joinSp (p ++ l))))
    (HextT : ∀ u (p l : List String), m u (joinSp l) ≤ m u (joinSp (p ++ l))) :
    ((wrapInfos m width maxW a full_text).map (lineSlot (lineHeight a) tlhA)).sum
      ≤ ((wrapInfos m width maxW b full_text).map (lineSlot (lineHeight b) tlhB)).sum := by
  unfold wrapInfos
  simp only [List.map_append, List.sum_append]
  apply Nat.add_le_add
  · split_ifs with hT
    · simp
    · simp only [List.map_append, List.sum_append]
      rw [heightSum_markLines_true, heightSum_markLines_true]
      apply Nat.add_le_add
      · exact Nat.mul_le_mul
          (wrapWords_dominance _ _ (titleFits_dom m width hab Hmono HextT) _)
          htlh
      · simpa [blankInfo, lineSlot] using lineHeight_mono hab
  · split_ifs with hB
    · simp
    · exact bodySum_le m maxW hab tlhA tlhB Hmono Hext _

lemma totalHeightAt_mono (m : Nat → String → Nat) (width maxW : Nat)
    (full_text : String) {a b : Nat} (hab : a ≤ b)
    (Hmono : ∀ u v x, u ≤ v → m u x ≤ m v x)
    (Hext : ∀ u (p l : List String),
      m u (process_arabic_text (joinSp l)) ≤ m u (process_arabic_text (joinSp (p ++ l))))
    (HextT : ∀ u (p l : List String), m u (joinSp l) ≤ m u (joinSp (p ++ l))) :
    totalHeightAt m width maxW a full_text ≤ totalHeightAt m width maxW b full_text := by
  unfold totalHeightAt
  by_cases hT : (parse_title_and_text full_text).1 = ""
  · rw [if_pos hT, if_pos hT]
    exact wrapInfos_height_le m width maxW full_text hab _ _
      (lineHeight_mono hab) Hmono Hext HextT
  · rw [if_neg hT, if_neg hT]
    exact wrapInfos_height_le m width maxW full_text hab _ _
      (lineHeight_mono (titleSize_mono hab)) Hmono Hext HextT

/-- Shared core of claims C9 and C1: the number of images needed never grows
    when the font size shrinks, for any measurement that is monotone in the
    size and in trailing extension of a line. -/
lemma pagesNeededAt_antitone (m : Nat → String → Nat) (width height : Nat)
    (full_text : String) {a b : Nat} (hab : a ≤ b)
    (Hmono : ∀ u v x, u ≤ v → m u x ≤ m v x)
    (Hext : ∀ u (p l : List String),
      m u (process_arabic_text (joinSp l)) ≤ m u (process_arabic_text (joinSp (p ++ l))))
    (HextT : ∀ u (p l : List String), m u (joinSp l) ≤ m u (joinSp (p ++ l))) :
    pagesNeededAt m width height a full_text ≤ pagesNeededAt m width height b full_text := by
  unfold pagesNeededAt
  apply Nat.div_le_div_right
  have := totalHeightAt_mono m width (maxWOf width) full_text hab Hmono Hext HextT
  omega

lemma loopSizeFuel_stuck (pages : Nat → Nat) :
    ∀ (fuel s : Nat), MIN_FONT_SIZE ≤ s → s - MIN_FONT_SIZE ≤ fuel →
    (∀ u, MIN_FONT_SIZE ≤ u → u ≤ s → MAX_IMAGES < pages u) →
    loopSizeFuel pages fuel s = MIN_FONT_SIZE := by
  intro fuel
  induction fuel with
  | zero =>
    intro s h1 h2 _
    have hs : s = MIN_FONT_SIZE := by omega
    simp [loopSizeFuel, hs]
  | succ fuel ih =>
    intro s h1 h2 hall
    by_cases hs : MIN_FONT_SIZE < s
    · have hp : ¬ (pages s ≤ MAX_IMAGES) := by
        have := hall s (le_of_lt hs) (le_refl s)
        omega
      simp only [loopSizeFuel, if_pos hs, if_neg hp]
      exact ih (s - 1) (by omega) (by omega) (fun u hu1 hu2 => hall u hu1 (by omega))
    · have hs' : s = MIN_FONT_SIZE := by omega
      simp only [loopSizeFuel, if_neg hs, hs']
      rw [if_neg (by omega : ¬ MIN_FONT_SIZE < MIN_FONT_SIZE)]

lemma fontSize0_ge (full_text : String) : MIN_FONT_SIZE ≤ fontSize0 full_text := by
  unfold fontSize0 MIN_FONT_SIZE MAX_FONT_SIZE DEFAULT_FONT_SIZE
  split_ifs <;> omega

/-- Claim C1: for a measurement that is monotone in the size and in trailing
    extension of a line, a document that still needs more than `MAX_IMAGES`
    images at `MIN_FONT_SIZE` (and hence, by monotonicity, at every probed
    size) makes `create_text_image` return the empty list - overflow is
    signalled explicitly, never by truncation. -/
theorem c1_overflow_returns_empty (m : Nat → String → Nat) (title text : String)
    (width height : Nat)
    (Hmono : ∀ u v x, u ≤ v → m u x ≤ m v x)
    (Hext : ∀ u (p l : List String),
      m u (process_arabic_text (joinSp l)) ≤ m u (process_arabic_text (joinSp (p ++ l))))
    (HextT : ∀ u (p l : List String), m u (joinSp l) ≤ m u (joinSp (p ++ l)))
    (hmin : MAX_IMAGES < pagesNeededAt m width height MIN_FONT_SIZE (fullTextOf title text)) :
    create_text_image m title text width height = [] := by
  have hall : ∀ u, MIN_FONT_SIZE ≤ u → u ≤ fontSize0 (fullTextOf title text) →
      MAX_IMAGES < pagesNeededAt m width height u (fullTextOf title text) := by
    intro u hu1 _
    have := pagesNeededAt_antitone m width height (fullTextOf title text) hu1 Hmono Hext HextT
    omega
  have hchosen : chosenSize (fun s => pagesNeededAt m width height s (fullTextOf title text))
      (fontSize0 (fullTextOf title text)) = MIN_FONT_SIZE := by
    unfold chosenSize
    exact loopSizeFuel_stuck _ _ _ (fontSize0_ge _) (by omega) hall
  unfold create_text_image
  simp only [hchosen, le_refl, if_pos, if_pos hmin]

/-- Witness for C1: a constant 1000-pixel measurement (all monotonicity
    hypotheses hold with equality) on a 100-pixel-wide canvas forces one word
    per line; twelve words need six images, more than `MAX_IMAGES`, so the run
    returns the empty list. -/
theorem c1_overflow_returns_empty_witness :
    MAX_IMAGES < pagesNeededAt (fun _ _ => 1000) 100 600 MIN_FONT_SIZE
      (fullTextOf "a b c d e f g h i j k l" "") ∧
    create_text_image (fun _ _ => 1000) "a b c d e f g h i j k l" "" 100 600 = [] :=
  ⟨by decide,
    c1_overflow_returns_empty (fun _ _ => 1000) "a b c d e f g h i j k l" "" 100 600
      (fun _ _ _ _ => le_refl 1000) (fun _ _ _ => le_refl 1000) (fun _ _ _ => le_refl 1000)
      (by decide)⟩

/-- Claim C9: the font-size search criterion is monotonic - for any
    measurement monotone in the size and in trailing extension of a line,
    shrinking the font size (with wrapping fully re-run at the smaller size)
    never increases the number of images needed; in particular a document that
    fits the page budget at size `b` also fits at any size `a ≤ b`. -/
theorem c9_page_count_monotone (m : Nat → String → Nat) (width height : Nat)
    (full_text : String) (a b : Nat) (hab : a ≤ b)
    (Hmono : ∀ u v x, u ≤ v → m u x ≤ m v x)
    (Hext : ∀ u (p l : List String),
      m u (process_arabic_text (joinSp l)) ≤ m u (process_arabic_text (joinSp (p ++ l))))
    (HextT : ∀ u (p l : List String), m u (joinSp l) ≤ m u (joinSp (p ++ l))) :
    pagesNeededAt m width height a full_text ≤ pagesNeededAt m width height b full_text :=
  pagesNeededAt_antitone m width height full_text hab Hmono Hext HextT

/-- Witness for C9: at the constant 1000-pixel measurement the page counts at
    sizes 80 and 90 compare as the theorem states. -/
theorem c9_page_count_monotone_witness :
    (80 : Nat) ≤ 90 ∧
    pagesNeededAt (fun _ _ => 1000) 100 600 80 "hello world"
      ≤ pagesNeededAt (fun _ _ => 1000) 100 600 90 "hello world" :=
  ⟨by decide,
    c9_page_count_monotone (fun _ _ => 1000) 100 600 "hello world" 80 90 (by decide)
      (fun _ _ _ _ => le_refl 1000) (fun _ _ _ => le_refl 1000) (fun _ _ _ => le_refl 1000)⟩

/-- Witness for C4: at the character-count measure, `["ab", "cd"]` justified
    to width 10 follows the spec formula. -/
theorem c4_justify_matches_formula_witness :
    2 ≤ (["ab", "cd"] : List String).length ∧ 0 < (fun s : String => s.data.length) " " ∧
    justify_line (fun s : String => s.data.length) ["ab", "cd"] 10
      = justifySpecC4 (fun s : String => s.data.length) ["ab", "cd"] 10 :=
  ⟨by decide, by decide,
    c4_justify_matches_formula (fun s : String => s.data.length) ["ab", "cd"] 10
      (by decide) (by decide)⟩

/-- Witness for C5: collapsing the spaces of the justified `["ab", "cd"]`
    recovers `"ab cd"`. -/
theorem c5_justify_collapse_witness :
    goodWords ["ab", "cd"] ∧
    collapseSpaces (justify_line (fun s : String => s.data.length) ["ab", "cd"] 10)
      = joinSp ["ab", "cd"] :=
  ⟨by unfold goodWords; decide,
    c5_justify_collapse (fun s : String => s.data.length) ["ab", "cd"] 10
      (by unfold goodWords; decide)⟩

/-- Witness for C10: the justified `["ab", "cd"]` at target 10 measures within
    the target. -/
theorem c10_justify_no_overshoot_witness :
    2 ≤ (["ab", "cd"] : List String).length ∧
    ((["ab", "cd"] : List String).map (fun s : String => s.data.length)).sum
      + ((["ab", "cd"] : List String).length - 1) * (fun s : String => s.data.length) " " < 10 ∧
    ((["ab", "cd"] : List String).map (fun s : String => s.data.length)).sum
      + spaceCount (justify_line (fun s : String => s.data.length) ["ab", "cd"] 10)
        * (fun s : String => s.data.length) " " ≤ 10 :=
  ⟨by decide, by decide,
    c10_justify_no_overshoot (fun s : String => s.data.length) ["ab", "cd"] 10
      (by decide) (by decide) (by decide) (by decide)⟩
